import Mathlib

/-!
# `main_ru.cpp`: UTF-8 codec and syllable-block transliteration

A shallow embedding of the four functions of `src/main_ru.cpp`
(`utf8ToCodepoints`, `codepointToUtf8`, `translitLanguageToRussian`,
`romanizeCodepoint`) and of the body of the read loop of `main`.

Conventions of the embedding:

* a `std::string` is a `List Nat` of bytes; every read of a character goes
  through `toByte` (the `static_cast<unsigned char>` of the source), and so
  does every `static_cast<char>` before a `push_back`;
* a `uint32_t` is a `Nat`; the one place where the source computes a value
  that could leave 32 bits (`cp << 6`) is wrapped with `u32`, and so is the
  unsigned sum `SBase + SCount`;
* the `while` loop over the cursor `i` is a function of the cursor and the
  vector built so far, driven by a step budget equal to the length of the
  input (each iteration moves the cursor forward by at least one byte).
-/

namespace MainRu

/-! ## Machine integers -/

/-- The low eight bits of a value: `static_cast<unsigned char>` and `static_cast<char>`. -/
def toByte (x : Nat) : Nat := x % 256

/-- Arithmetic of `uint32_t` wraps modulo `2 ^ 32`. -/
def u32 (x : Nat) : Nat := x % 2 ^ 32

/-! ## UTF-8 helpers -/

/-- The `if`/`else if` chain on the leading byte `c` (source lines 17-33): the initial value of
`cp` and the number `extra` of continuation bytes, or `none` for the final `else` branch
(invalid byte). -/
def leadByte (c : Nat) : Option (Nat × Nat) :=
  if c &&& 0x80 = 0 then some (c, 0)
  else if c &&& 0xE0 = 0xC0 then some (c &&& 0x1F, 1)
  else if c &&& 0xF0 = 0xE0 then some (c &&& 0x0F, 2)
  else if c &&& 0xF8 = 0xF0 then some (c &&& 0x07, 3)
  else none

/-- The inner `for (j = 0; j < extra; ++j)` loop (source lines 37-44) for a sequence that starts
at index `i` of `s`.  The first argument is the number `extra - j` of iterations still to run;
the result is the value of `cp` when the loop is left. -/
def contLoop (s : List Nat) (i : Nat) : Nat → Nat → Nat → Nat
  | 0, _, cp => cp
  | k + 1, j, cp =>
    let c2 := toByte (s.getD (i + 1 + j) 0)
    if c2 &&& 0xC0 ≠ 0x80 then 0xFFFD
    else contLoop s i k (j + 1) (u32 ((cp <<< 6) ||| (c2 &&& 0x3F)))

/-- The `while (i < s.size())` loop (source lines 12-48): cursor `i`, vector `codepoints`.  The
first argument bounds the number of iterations. -/
def decodeLoop (s : List Nat) : Nat → Nat → List Nat → List Nat
  | 0, _, codepoints => codepoints
  | fuel + 1, i, codepoints =>
    if i < s.length then
      match leadByte (toByte (s.getD i 0)) with
      | none => decodeLoop s fuel (i + 1) codepoints
      | some (cp, extra) =>
        if i + extra ≥ s.length then codepoints
        else decodeLoop s fuel (i + 1 + extra) (codepoints ++ [contLoop s i extra 0 cp])
    else codepoints

/-- Source lines 9-50. -/
def utf8ToCodepoints (s : List Nat) : List Nat :=
  decodeLoop s s.length 0 []

/-- Source lines 52-70. -/
def codepointToUtf8 (cp : Nat) : List Nat :=
  if cp ≤ 0x7F then
    [toByte cp]
  else if cp ≤ 0x7FF then
    [toByte (0xC0 ||| ((cp >>> 6) &&& 0x1F)),
     toByte (0x80 ||| (cp &&& 0x3F))]
  else if cp ≤ 0xFFFF then
    [toByte (0xE0 ||| ((cp >>> 12) &&& 0x0F)),
     toByte (0x80 ||| ((cp >>> 6) &&& 0x3F)),
     toByte (0x80 ||| (cp &&& 0x3F))]
  else
    [toByte (0xF0 ||| ((cp >>> 18) &&& 0x07)),
     toByte (0x80 ||| ((cp >>> 12) &&& 0x3F)),
     toByte (0x80 ||| ((cp >>> 6) &&& 0x3F)),
     toByte (0x80 ||| (cp &&& 0x3F))]

/-! ## Transliteration -/

/-- The bytes of a string literal of the source file, which is UTF-8 encoded. -/
def cstr (s : String) : List Nat :=
  (s.data.flatMap String.utf8EncodeChar).map UInt8.toNat

def SBase : Nat := 0xAC00
def LCount : Nat := 19
def VCount : Nat := 21
def TCount : Nat := 28
def NCount : Nat := VCount * TCount
def SCount : Nat := LCount * NCount

/-- Initial consonants (source lines 91-111). -/
def LTable : List (List Nat) :=
  [cstr "г", cstr "кк", cstr "н", cstr "д", cstr "тт", cstr "р", cstr "м", cstr "б",
   cstr "пп", cstr "с", cstr "сс", cstr "", cstr "ч", cstr "чч", cstr "чх", cstr "к",
   cstr "т", cstr "п", cstr "х"]

/-- Vowels (source lines 114-136). -/
def VTable : List (List Nat) :=
  [cstr "а", cstr "э", cstr "я", cstr "е", cstr "о", cstr "э", cstr "ё", cstr "е",
   cstr "о", cstr "ва", cstr "вэ", cstr "ве", cstr "ё", cstr "у", cstr "во", cstr "ве",
   cstr "ви", cstr "ю", cstr "ы", cstr "и", cstr "и"]

/-- Final consonants (source lines 139-168). -/
def TTable : List (List Nat) :=
  [cstr "", cstr "к", cstr "к", cstr "кс", cstr "н", cstr "ндж", cstr "нх", cstr "т",
   cstr "ль", cstr "льк", cstr "льм", cstr "льб", cstr "льс", cstr "льт", cstr "льп",
   cstr "льх", cstr "м", cstr "п", cstr "пс", cstr "т", cstr "т", cstr "н", cstr "т",
   cstr "т", cstr "к", cstr "т", cstr "п", cstr "т"]

/-- The range check of source line 86: `cp < SBase || cp >= SBase + SCount`. -/
def outOfRange (cp : Nat) : Bool :=
  decide (cp < SBase) || decide (cp ≥ u32 (SBase + SCount))

/-- Source line 170.  It is evaluated only after the range check, where `cp ≥ SBase`, so the
unsigned subtraction does not wrap and the conversion to `int` keeps the value. -/
def SIndex (cp : Nat) : Nat := cp - SBase

/-- Source line 171. -/
def LIndex (cp : Nat) : Nat := SIndex cp / NCount

/-- Source line 172. -/
def VIndex (cp : Nat) : Nat := (SIndex cp % NCount) / TCount

/-- Source line 173. -/
def TIndex (cp : Nat) : Nat := SIndex cp % TCount

/-- Indexing of a constant table, `Table[k]`.  An index past the end has no defined value in the
source; the embedding makes the function total with the empty string there. -/
def tableAt (table : List (List Nat)) (k : Nat) : List Nat :=
  match table.get? k with
  | some str => str
  | none => []

/-- Source lines 74-181.  `result` starts as the empty string and receives the three table
entries with `+=`, in the order initial, vowel, final. -/
def translitLanguageToRussian (cp : Nat) : List Nat :=
  if outOfRange cp then []
  else tableAt LTable (LIndex cp) ++ tableAt VTable (VIndex cp) ++ tableAt TTable (TIndex cp)

/-- Source lines 185-192. -/
def romanizeCodepoint (cp : Nat) : List Nat :=
  let ko := translitLanguageToRussian cp
  if !ko.isEmpty then ko
  else codepointToUtf8 cp

/-- The body of the read loop of `main` (source lines 202-206): the string written for one
input line. -/
def processLine (input : List Nat) : List Nat :=
  let cps := utf8ToCodepoints input
  cps.foldl (fun out cp => out ++ romanizeCodepoint cp) []

/-! ## The decoder as a function of the remaining input

`decodeList` and `contList` restate the two loops on the suffix of the input that starts at the
cursor.  They are used in proofs only; `decodeLoop_eq` links them to the loops above. -/

/-- The inner loop run on the continuation bytes themselves. -/
def contList : List Nat → Nat → Nat
  | [], cp => cp
  | b :: bs, cp =>
    if toByte b &&& 0xC0 ≠ 0x80 then 0xFFFD
    else contList bs (u32 ((cp <<< 6) ||| (toByte b &&& 0x3F)))

/-- The outer loop run on the bytes from the cursor onwards. -/
def decodeList : List Nat → List Nat
  | [] => []
  | c :: rest =>
    match leadByte (toByte c) with
    | none => decodeList rest
    | some (cp, extra) =>
      if rest.length < extra then []
      else contList (rest.take extra) cp :: decodeList (rest.drop extra)
termination_by s => s.length
decreasing_by
  all_goals simp_wf
  all_goals omega

/-- The four leading patterns of `leadByte`, read as intervals of byte values; `leadByte_eq_arith`
shows that the two agree on every byte.  Used in proofs only. -/
def leadByteArith (c : Nat) : Option (Nat × Nat) :=
  if c < 0x80 then some (c, 0)
  else if c < 0xC0 then none
  else if c < 0xE0 then some (c - 0xC0, 1)
  else if c < 0xF0 then some (c - 0xE0, 2)
  else if c < 0xF8 then some (c - 0xF0, 3)
  else none

/-! ## The loop, one iteration at a time -/

/-- One iteration of the `while` loop of `utf8ToCodepoints` from cursor `i` with vector
`codepoints`: `none` when the loop is left (the condition `i < s.size()` fails, or the `break`
of source line 35 is taken), otherwise the cursor and the vector after the iteration. -/
def decodeStep (s : List Nat) (i : Nat) (codepoints : List Nat) : Option (Nat × List Nat) :=
  if i < s.length then
    match leadByte (toByte (s.getD i 0)) with
    | none => some (i + 1, codepoints)
    | some (cp, extra) =>
      if i + extra ≥ s.length then none
      else some (i + 1 + extra, codepoints ++ [contLoop s i extra 0 cp])
  else none

/-- The loop run for at most `fuel` evaluations of `decodeStep`: `some` of the returned vector
when the loop is left within the budget, `none` when the budget runs out first. -/
def decodeRun (s : List Nat) : Nat → Nat → List Nat → Option (List Nat)
  | 0, _, _ => none
  | fuel + 1, i, codepoints =>
    match decodeStep s i codepoints with
    | none => some codepoints
    | some (i2, codepoints2) => decodeRun s fuel i2 codepoints2

/-! ## Combining the payload bits -/

/-- The payload bits of the leading byte of a sequence of encoded length `n`: the low 5, 4 or
3 bits for `n` = 2, 3 or 4 (source lines 21, 24, 27). -/
def leadPayload (lead n : Nat) : Nat :=
  if n = 2 then lead &&& 0x1F
  else if n = 3 then lead &&& 0x0F
  else lead &&& 0x07

/-- The payload bits of a run of continuation bytes, six per byte (`c2 & 0x3F`), the first byte
in the highest position. -/
def contPayload : List Nat → Nat
  | [] => 0
  | b :: bs => ((b &&& 0x3F) <<< (6 * bs.length)) ||| contPayload bs

/-- The codepoint as the specification words it: the payload of the leading byte shifted left
by `6 × n`, `n` the encoded length (leading byte included), OR-ed with the continuation
payload.  It follows the specification, not the source, and is compared with the source in
the theorems on claim C13. -/
def combineAsStated (lead : Nat) (conts : List Nat) : Nat :=
  (leadPayload lead (conts.length + 1) <<< (6 * (conts.length + 1))) ||| contPayload conts

/-! ## Shapes of byte sequences -/

/-- A leading byte followed by exactly as many bytes of the form `10xxxxxx` as it announces. -/
def isStructurallyWellFormed : List Nat → Bool
  | [] => false
  | c :: rest =>
    decide (c < 256) &&
      match leadByte c with
      | none => false
      | some (_, extra) =>
        decide (rest.length = extra) &&
          rest.all (fun b => decide (b < 256) && decide (b &&& 0xC0 = 0x80))

/-- Outside the syllable range and below `2 ^ 21`. -/
def isPlainCodepoint (q : Nat) : Bool :=
  decide (q < 0x200000) && !(decide (0xAC00 ≤ q) && decide (q ≤ 0xD7A3))

/-- The byte string `p` is exactly the concatenation of the encodings of the codepoints that
the decoder reads from it, and none of these codepoints is a syllable. -/
def isCleanText (p : List Nat) : Bool :=
  decide (((utf8ToCodepoints p).map codepointToUtf8).flatten = p) &&
    (utf8ToCodepoints p).all isPlainCodepoint

/-! ## Linking the loops to their list form -/

theorem getD_eq_head_drop (s : List Nat) (n : Nat) (h : n < s.length) :
    s.drop n = s.getD n 0 :: s.drop (n + 1) := by
  rw [List.getD_eq_getElem s 0 h]
  exact List.drop_eq_getElem_cons h

theorem contLoop_eq (s : List Nat) (i : Nat) :
    ∀ (k j cp : Nat), i + 1 + j + k ≤ s.length →
      contLoop s i k j cp = contList ((s.drop (i + 1 + j)).take k) cp := by
  intro k
  induction k with
  | zero => intro j cp _; simp [contLoop, contList]
  | succ k ih =>
    intro j cp h
    have hlt : i + 1 + j < s.length := by omega
    rw [getD_eq_head_drop s (i + 1 + j) hlt, List.take_succ_cons]
    simp only [contLoop, contList]
    split
    · rfl
    · rw [ih (j + 1) _ (by omega)]
      rfl

theorem decodeList_nil : decodeList [] = [] := by
  rw [decodeList]

theorem decodeList_cons (c : Nat) (rest : List Nat) :
    decodeList (c :: rest) =
      match leadByte (toByte c) with
      | none => decodeList rest
      | some (cp, extra) =>
        if rest.length < extra then []
        else contList (rest.take extra) cp :: decodeList (rest.drop extra) := by
  rw [decodeList]

theorem decodeLoop_eq (s : List Nat) :
    ∀ (fuel i : Nat) (acc : List Nat), s.length - i ≤ fuel →
      decodeLoop s fuel i acc = acc ++ decodeList (s.drop i) := by
  intro fuel
  induction fuel with
  | zero =>
    intro i acc h
    have : s.drop i = [] := List.drop_eq_nil_of_le (by omega)
    simp [decodeLoop, this, decodeList_nil]
  | succ fuel ih =>
    intro i acc h
    by_cases hi : i < s.length
    · rw [getD_eq_head_drop s i hi, decodeList_cons]
      simp only [decodeLoop, if_pos hi]
      cases hl : leadByte (toByte (s.getD i 0)) with
      | none =>
        simp only []
        exact ih (i + 1) acc (by omega)
      | some p =>
        obtain ⟨cp, extra⟩ := p
        simp only [List.length_drop]
        by_cases hx : i + extra ≥ s.length
        · rw [if_pos hx, if_pos (by omega)]
          simp
        · rw [if_neg hx, if_neg (by omega)]
          rw [ih (i + 1 + extra) _ (by omega), contLoop_eq s i extra 0 cp (by omega)]
          simp [List.drop_drop, Nat.add_comm, Nat.add_left_comm]
    · have : s.drop i = [] := List.drop_eq_nil_of_le (by omega)
      simp [decodeLoop, hi, this, decodeList_nil]

theorem utf8ToCodepoints_eq (s : List Nat) : utf8ToCodepoints s = decodeList s := by
  simp [utf8ToCodepoints, decodeLoop_eq s s.length 0 [] (by omega)]

/-- The step budget of `utf8ToCodepoints` is never the reason the loop stops: any budget of at
least the length of the input gives the same result. -/
theorem decodeLoop_budget (s : List Nat) (fuel : Nat) (h : s.length ≤ fuel) :
    decodeLoop s fuel 0 [] = utf8ToCodepoints s := by
  rw [utf8ToCodepoints_eq, decodeLoop_eq s fuel 0 [] (by omega)]
  simp


/-! ## Bit operations as arithmetic -/

theorem toByte_lt (x : Nat) : toByte x < 256 := Nat.mod_lt x (by decide)

theorem toByte_of_lt {x : Nat} (h : x < 256) : toByte x = x := Nat.mod_eq_of_lt h

theorem and_3F (x : Nat) : x &&& 0x3F = x % 64 := Nat.and_pow_two_sub_one_eq_mod x 6
theorem and_1F (x : Nat) : x &&& 0x1F = x % 32 := Nat.and_pow_two_sub_one_eq_mod x 5
theorem and_0F (x : Nat) : x &&& 0x0F = x % 16 := Nat.and_pow_two_sub_one_eq_mod x 4
theorem and_07 (x : Nat) : x &&& 0x07 = x % 8 := Nat.and_pow_two_sub_one_eq_mod x 3

theorem shr_6 (x : Nat) : x >>> 6 = x / 64 := Nat.shiftRight_eq_div_pow x 6
theorem shr_12 (x : Nat) : x >>> 12 = x / 4096 := Nat.shiftRight_eq_div_pow x 12
theorem shr_18 (x : Nat) : x >>> 18 = x / 262144 := Nat.shiftRight_eq_div_pow x 18

theorem shl_6_or (x y : Nat) : (x <<< 6) ||| (y % 64) = x * 64 + y % 64 := by
  have h := Nat.mul_add_lt_is_or (Nat.mod_lt y (by decide : 0 < 2 ^ 6)) x
  rw [Nat.shiftLeft_eq, Nat.mul_comm x (2 ^ 6)]
  exact h.symm

theorem or_80 (y : Nat) : 0x80 ||| (y % 64) = 128 + y % 64 := by
  have h : ∀ w, w < 64 → 0x80 ||| w = 128 + w := by decide
  exact h _ (Nat.mod_lt y (by decide))

theorem or_C0 (y : Nat) : 0xC0 ||| (y % 32) = 192 + y % 32 := by
  have h : ∀ w, w < 32 → 0xC0 ||| w = 192 + w := by decide
  exact h _ (Nat.mod_lt y (by decide))

theorem or_E0 (y : Nat) : 0xE0 ||| (y % 16) = 224 + y % 16 := by
  have h : ∀ w, w < 16 → 0xE0 ||| w = 224 + w := by decide
  exact h _ (Nat.mod_lt y (by decide))

theorem or_F0 (y : Nat) : 0xF0 ||| (y % 8) = 240 + y % 8 := by
  have h : ∀ w, w < 8 → 0xF0 ||| w = 240 + w := by decide
  exact h _ (Nat.mod_lt y (by decide))

set_option maxRecDepth 100000 in
theorem leadByte_eq_arith : ∀ c, c < 256 → leadByte c = leadByteArith c := by
  decide

set_option maxRecDepth 100000 in
theorem isCont_iff : ∀ c, c < 256 → (c &&& 0xC0 = 0x80 ↔ 0x80 ≤ c ∧ c < 0xC0) := by
  decide


theorem codepointToUtf8_arith (cp : Nat) :
    codepointToUtf8 cp =
      if cp ≤ 0x7F then [cp]
      else if cp ≤ 0x7FF then [192 + cp / 64 % 32, 128 + cp % 64]
      else if cp ≤ 0xFFFF then [224 + cp / 4096 % 16, 128 + cp / 64 % 64, 128 + cp % 64]
      else [240 + cp / 262144 % 8, 128 + cp / 4096 % 64, 128 + cp / 64 % 64, 128 + cp % 64] := by
  unfold codepointToUtf8
  simp only [and_3F, and_1F, and_0F, and_07, shr_6, shr_12, shr_18, or_80, or_C0, or_E0, or_F0]
  split
  · rw [toByte_of_lt (by omega)]
  · split
    · rw [toByte_of_lt (by omega), toByte_of_lt (by omega)]
    · split
      · rw [toByte_of_lt (by omega), toByte_of_lt (by omega), toByte_of_lt (by omega)]
      · rw [toByte_of_lt (by omega), toByte_of_lt (by omega), toByte_of_lt (by omega),
          toByte_of_lt (by omega)]

theorem contList_cons_arith (b cp : Nat) (bs : List Nat) :
    contList (b :: bs) cp =
      if 0x80 ≤ b % 256 ∧ b % 256 < 0xC0 then contList bs ((cp * 64 + b % 64) % 2 ^ 32)
      else 0xFFFD := by
  have hc := isCont_iff (toByte b) (toByte_lt b)
  simp only [contList, and_3F, shl_6_or, u32]
  by_cases h : toByte b &&& 0xC0 = 0x80
  · have h2 := hc.mp h
    simp only [toByte] at h2 ⊢
    rw [if_neg (by simpa [toByte] using h), if_pos h2]
    congr 2
    omega
  · have h2 : ¬ (0x80 ≤ toByte b ∧ toByte b < 0xC0) := fun h3 => h (hc.mpr h3)
    simp only [toByte] at h2
    rw [if_pos h, if_neg h2]

theorem utf8ToCodepoints_nil : utf8ToCodepoints [] = [] := by
  rw [utf8ToCodepoints_eq, decodeList_nil]

theorem utf8ToCodepoints_cons (c : Nat) (rest : List Nat) :
    utf8ToCodepoints (c :: rest) =
      match leadByteArith (c % 256) with
      | none => utf8ToCodepoints rest
      | some (cp, extra) =>
        if rest.length < extra then []
        else contList (rest.take extra) cp :: utf8ToCodepoints (rest.drop extra) := by
  simp only [utf8ToCodepoints_eq]
  rw [decodeList_cons, leadByte_eq_arith _ (toByte_lt c)]
  rfl

theorem leadByteArith_one {c : Nat} (h : c < 0x80) : leadByteArith c = some (c, 0) := by
  simp [leadByteArith, h]

theorem leadByteArith_two {c : Nat} (h1 : 0xC0 ≤ c) (h2 : c < 0xE0) :
    leadByteArith c = some (c - 0xC0, 1) := by
  unfold leadByteArith
  rw [if_neg (by omega), if_neg (by omega), if_pos h2]

theorem leadByteArith_three {c : Nat} (h1 : 0xE0 ≤ c) (h2 : c < 0xF0) :
    leadByteArith c = some (c - 0xE0, 2) := by
  unfold leadByteArith
  rw [if_neg (by omega), if_neg (by omega), if_neg (by omega), if_pos h2]

theorem leadByteArith_four {c : Nat} (h1 : 0xF0 ≤ c) (h2 : c < 0xF8) :
    leadByteArith c = some (c - 0xF0, 3) := by
  unfold leadByteArith
  rw [if_neg (by omega), if_neg (by omega), if_neg (by omega), if_neg (by omega), if_pos h2]

theorem leadByteArith_invalid {c : Nat} (h : (0x80 ≤ c ∧ c < 0xC0) ∨ 0xF8 ≤ c) :
    leadByteArith c = none := by
  unfold leadByteArith
  rcases h with ⟨h1, h2⟩ | h
  · rw [if_neg (by omega), if_pos h2]
  · rw [if_neg (by omega), if_neg (by omega), if_neg (by omega), if_neg (by omega),
      if_neg (by omega)]

/-- One encoded codepoint below `2 ^ 21` at the head of the input decodes to itself. -/
theorem utf8ToCodepoints_encode_append (cp : Nat) (h : cp < 0x200000) (rest : List Nat) :
    utf8ToCodepoints (codepointToUtf8 cp ++ rest) = cp :: utf8ToCodepoints rest := by
  rw [codepointToUtf8_arith]
  split
  · rw [List.singleton_append, utf8ToCodepoints_cons, leadByteArith_one (by omega)]
    simp only [List.take_zero, List.drop_zero, contList]
    rw [if_neg (by omega)]
    congr 1
    omega
  · split
    · simp only [List.cons_append, List.nil_append]
      rw [utf8ToCodepoints_cons, leadByteArith_two (by omega) (by omega)]
      simp only [List.length_cons, List.take_succ_cons, List.take_zero, List.drop_succ_cons,
        List.drop_zero]
      rw [if_neg (by omega), contList_cons_arith, if_pos (by omega)]
      simp only [contList]
      congr 1
      omega
    · split
      · simp only [List.cons_append, List.nil_append]
        rw [utf8ToCodepoints_cons, leadByteArith_three (by omega) (by omega)]
        simp only [List.length_cons, List.take_succ_cons, List.take_zero, List.drop_succ_cons,
          List.drop_zero]
        rw [if_neg (by omega), contList_cons_arith, if_pos (by omega), contList_cons_arith,
          if_pos (by omega)]
        simp only [contList]
        congr 1
        omega
      · simp only [List.cons_append, List.nil_append]
        rw [utf8ToCodepoints_cons, leadByteArith_four (by omega) (by omega)]
        simp only [List.length_cons, List.take_succ_cons, List.take_zero, List.drop_succ_cons,
          List.drop_zero]
        rw [if_neg (by omega), contList_cons_arith, if_pos (by omega), contList_cons_arith,
          if_pos (by omega), contList_cons_arith, if_pos (by omega)]
        simp only [contList]
        congr 1
        omega


/-! ## The tables and the decomposition -/

theorem outOfRange_eq_false {cp : Nat} (h1 : 0xAC00 ≤ cp) (h2 : cp ≤ 0xD7A3) :
    outOfRange cp = false := by
  simp only [outOfRange, SBase, SCount, LCount, NCount, VCount, TCount, u32]
  simp only [Bool.or_eq_false_iff, decide_eq_false_iff_not]
  omega

theorem outOfRange_eq_true {cp : Nat} (h : cp < 0xAC00 ∨ cp ≥ 0xAC00 + 11172) :
    outOfRange cp = true := by
  simp only [outOfRange, SBase, SCount, LCount, NCount, VCount, TCount, u32]
  simp only [Bool.or_eq_true, decide_eq_true_eq]
  omega

theorem index_bounds {cp : Nat} (h1 : 0xAC00 ≤ cp) (h2 : cp ≤ 0xD7A3) :
    LIndex cp < 19 ∧ VIndex cp < 21 ∧ TIndex cp < 28 := by
  simp only [LIndex, VIndex, TIndex, SIndex, SBase, NCount, VCount, TCount]
  omega

theorem VTable_nonempty : ∀ v, v < 21 → tableAt VTable v ≠ [] := by
  decide

theorem table_get (table : List (List Nat)) (k : Nat) (h : k < table.length) :
    table.get? k = some (tableAt table k) := by
  unfold tableAt
  rw [List.get?_eq_get h]

theorem translit_in_range {cp : Nat} (h1 : 0xAC00 ≤ cp) (h2 : cp ≤ 0xD7A3) :
    translitLanguageToRussian cp =
      tableAt LTable (LIndex cp) ++ tableAt VTable (VIndex cp) ++ tableAt TTable (TIndex cp) := by
  unfold translitLanguageToRussian
  rw [if_neg (by rw [outOfRange_eq_false h1 h2]; decide)]

theorem translit_ne_nil {cp : Nat} (h1 : 0xAC00 ≤ cp) (h2 : cp ≤ 0xD7A3) :
    translitLanguageToRussian cp ≠ [] := by
  rw [translit_in_range h1 h2]
  have hv := VTable_nonempty (VIndex cp) (index_bounds h1 h2).2.1
  intro h
  simp only [List.append_eq_nil] at h
  exact hv h.1.2

theorem romanize_out_of_range {cp : Nat} (h : cp < 0xAC00 ∨ cp ≥ 0xAC00 + 11172) :
    romanizeCodepoint cp = codepointToUtf8 cp := by
  simp [romanizeCodepoint, translitLanguageToRussian, outOfRange_eq_true h]

theorem romanize_in_range {cp : Nat} (h1 : 0xAC00 ≤ cp) (h2 : cp ≤ 0xD7A3) :
    romanizeCodepoint cp = translitLanguageToRussian cp := by
  have h := translit_ne_nil h1 h2
  simp [romanizeCodepoint, h]

/-! ## Claims -/

/-- C1: every codepoint up to `0x10FFFF` that is not a surrogate, the ASCII ones included,
is given back by decoding its encoding: `utf8ToCodepoints (codepointToUtf8 cp) = [cp]`. -/
theorem C1_roundtrip_scalar (cp : Nat) (hmax : cp ≤ 0x10FFFF)
    (_hsur : ¬ (0xD800 ≤ cp ∧ cp ≤ 0xDFFF)) :
    utf8ToCodepoints (codepointToUtf8 cp) = [cp] := by
  have h := utf8ToCodepoints_encode_append cp (by omega) []
  rw [List.append_nil, utf8ToCodepoints_nil] at h
  exact h

theorem C1_roundtrip_scalar_witness :
    utf8ToCodepoints (codepointToUtf8 0x41) = [0x41] ∧
    utf8ToCodepoints (codepointToUtf8 0x10FFFF) = [0x10FFFF] :=
  ⟨C1_roundtrip_scalar 0x41 (by decide) (by decide),
   C1_roundtrip_scalar 0x10FFFF (by decide) (by decide)⟩

/-- C2: for a 32-bit codepoint of the syllable range `[0xAC00, 0xD7A3]` the three table entries
at `L = S / 588`, `V = (S mod 588) / 28`, `T = S mod 28` (`S = cp - 0xAC00`) exist and
`romanizeCodepoint cp` is their concatenation in that order; the transliteration is not empty,
so the fallback to `codepointToUtf8` is not taken.  For `0xAC00` the result is `"га"`. -/
theorem C2_romanize_syllable (cp : Nat) (_h32 : cp < 2 ^ 32) (hlo : 0xAC00 ≤ cp)
    (hhi : cp ≤ 0xD7A3) :
    (∃ l v t,
      LTable.get? ((cp - 0xAC00) / 588) = some l ∧
      VTable.get? ((cp - 0xAC00) % 588 / 28) = some v ∧
      TTable.get? ((cp - 0xAC00) % 28) = some t ∧
      romanizeCodepoint cp = l ++ v ++ t) ∧
    translitLanguageToRussian cp ≠ [] ∧
    romanizeCodepoint 0xAC00 = LTable.getD 0 [] ++ VTable.getD 0 [] ++ TTable.getD 0 [] ∧
    romanizeCodepoint 0xAC00 = cstr "га" := by
  obtain ⟨hl, hv, ht⟩ := index_bounds hlo hhi
  refine ⟨⟨tableAt LTable (LIndex cp), tableAt VTable (VIndex cp), tableAt TTable (TIndex cp),
    ?_, ?_, ?_, ?_⟩, translit_ne_nil hlo hhi, by decide, by decide⟩
  · exact table_get LTable (LIndex cp) hl
  · exact table_get VTable (VIndex cp) hv
  · exact table_get TTable (TIndex cp) ht
  · rw [romanize_in_range hlo hhi, translit_in_range hlo hhi]

theorem C2_romanize_syllable_witness :
    (∃ l v t,
      LTable.get? ((0xD55C - 0xAC00) / 588) = some l ∧
      VTable.get? ((0xD55C - 0xAC00) % 588 / 28) = some v ∧
      TTable.get? ((0xD55C - 0xAC00) % 28) = some t ∧
      romanizeCodepoint 0xD55C = l ++ v ++ t) ∧
    translitLanguageToRussian 0xD55C ≠ [] ∧
    romanizeCodepoint 0xAC00 = LTable.getD 0 [] ++ VTable.getD 0 [] ++ TTable.getD 0 [] ∧
    romanizeCodepoint 0xAC00 = cstr "га" :=
  C2_romanize_syllable 0xD55C (by decide) (by decide) (by decide)

/-- C3: for a 32-bit codepoint outside `[0xAC00, 0xD7A3]` (below `0xAC00`, or at least
`0xAC00 + 11172`) `romanizeCodepoint cp = codepointToUtf8 cp`. -/
theorem C3_romanize_passthrough (cp : Nat) (_h32 : cp < 2 ^ 32)
    (hout : cp < 0xAC00 ∨ cp ≥ 0xAC00 + 11172) :
    romanizeCodepoint cp = codepointToUtf8 cp :=
  romanize_out_of_range hout

theorem C3_romanize_passthrough_witness :
    romanizeCodepoint 0x416 = codepointToUtf8 0x416 ∧
    romanizeCodepoint 0xD7A4 = codepointToUtf8 0xD7A4 :=
  ⟨C3_romanize_passthrough 0x416 (by decide) (by decide),
   C3_romanize_passthrough 0xD7A4 (by decide) (by decide)⟩

/-- C4: for every codepoint of `[0xAC00, 0xD7A3]` (`11172` values) the range check passes and
`LIndex < 19`, `VIndex < 21`, `TIndex < 28`; the tables have exactly `19`, `21` and `28`
entries, so each of the three lookups hits an entry of its table. -/
theorem C4_indices_in_bounds (cp : Nat) (hlo : 0xAC00 ≤ cp) (hhi : cp ≤ 0xD7A3) :
    0xD7A3 + 1 - 0xAC00 = SCount ∧
    outOfRange cp = false ∧
    LIndex cp < LCount ∧ VIndex cp < VCount ∧ TIndex cp < TCount ∧
    LTable.length = LCount ∧ VTable.length = VCount ∧ TTable.length = TCount ∧
    LTable.get? (LIndex cp) = some (tableAt LTable (LIndex cp)) ∧
    VTable.get? (VIndex cp) = some (tableAt VTable (VIndex cp)) ∧
    TTable.get? (TIndex cp) = some (tableAt TTable (TIndex cp)) := by
  obtain ⟨hl, hv, ht⟩ := index_bounds hlo hhi
  exact ⟨by decide, outOfRange_eq_false hlo hhi, hl, hv, ht, by decide, by decide, by decide,
    table_get LTable _ hl, table_get VTable _ hv, table_get TTable _ ht⟩

theorem C4_indices_in_bounds_witness :
    0xD7A3 + 1 - 0xAC00 = SCount ∧
    outOfRange 0xD7A3 = false ∧
    LIndex 0xD7A3 < LCount ∧ VIndex 0xD7A3 < VCount ∧ TIndex 0xD7A3 < TCount ∧
    LTable.length = LCount ∧ VTable.length = VCount ∧ TTable.length = TCount ∧
    LTable.get? (LIndex 0xD7A3) = some (tableAt LTable (LIndex 0xD7A3)) ∧
    VTable.get? (VIndex 0xD7A3) = some (tableAt VTable (VIndex 0xD7A3)) ∧
    TTable.get? (TIndex 0xD7A3) = some (tableAt TTable (TIndex 0xD7A3)) :=
  C4_indices_in_bounds 0xD7A3 (by decide) (by decide)

/-- C5: the decomposition is a bijection between the syllable range and the index triples.
For `cp` and `cp2` in `[0xAC00, 0xAC00 + 11172)` and `l < 19`, `v < 21`, `t < 28`:
`cp = 0xAC00 + (L * 21 + V) * 28 + T` for the computed triple; the codepoint
`0xAC00 + (l * 21 + v) * 28 + t` passes the range check and decomposes to `(l, v, t)`;
and if `cp` and `cp2` have the same triple they are equal. -/
theorem C5_decomposition_bijective (cp cp2 l v t : Nat)
    (hlo : 0xAC00 ≤ cp) (hhi : cp < 0xAC00 + 11172)
    (hlo2 : 0xAC00 ≤ cp2) (hhi2 : cp2 < 0xAC00 + 11172)
    (hl : l < 19) (hv : v < 21) (ht : t < 28) :
    cp = 0xAC00 + (LIndex cp * 21 + VIndex cp) * 28 + TIndex cp ∧
    (0xAC00 ≤ 0xAC00 + (l * 21 + v) * 28 + t ∧
      0xAC00 + (l * 21 + v) * 28 + t < 0xAC00 + 11172 ∧
      outOfRange (0xAC00 + (l * 21 + v) * 28 + t) = false ∧
      LIndex (0xAC00 + (l * 21 + v) * 28 + t) = l ∧
      VIndex (0xAC00 + (l * 21 + v) * 28 + t) = v ∧
      TIndex (0xAC00 + (l * 21 + v) * 28 + t) = t) ∧
    (LIndex cp = LIndex cp2 → VIndex cp = VIndex cp2 → TIndex cp = TIndex cp2 → cp = cp2) := by
  refine ⟨?_, ⟨by omega, by omega, outOfRange_eq_false (by omega) (by omega), ?_, ?_, ?_⟩, ?_⟩
  all_goals simp only [LIndex, VIndex, TIndex, SIndex, SBase, NCount, VCount, TCount]
  all_goals omega

theorem C5_decomposition_bijective_witness :
    0xD55C = 0xAC00 + (LIndex 0xD55C * 21 + VIndex 0xD55C) * 28 + TIndex 0xD55C ∧
    (0xAC00 ≤ 0xAC00 + (18 * 21 + 20) * 28 + 27 ∧
      0xAC00 + (18 * 21 + 20) * 28 + 27 < 0xAC00 + 11172 ∧
      outOfRange (0xAC00 + (18 * 21 + 20) * 28 + 27) = false ∧
      LIndex (0xAC00 + (18 * 21 + 20) * 28 + 27) = 18 ∧
      VIndex (0xAC00 + (18 * 21 + 20) * 28 + 27) = 20 ∧
      TIndex (0xAC00 + (18 * 21 + 20) * 28 + 27) = 27) ∧
    (LIndex 0xD55C = LIndex 0xAE00 → VIndex 0xD55C = VIndex 0xAE00 →
      TIndex 0xD55C = TIndex 0xAE00 → 0xD55C = 0xAE00) :=
  C5_decomposition_bijective 0xD55C 0xAE00 18 20 27 (by decide) (by decide) (by decide)
    (by decide) (by decide) (by decide) (by decide)


/-! ## Helpers for the malformed-input claims -/

set_option maxRecDepth 100000 in
theorem lead_patterns : ∀ c, c < 256 →
    (c &&& 0x80 = 0 ↔ c < 0x80) ∧
    (c &&& 0xE0 = 0xC0 ↔ 0xC0 ≤ c ∧ c < 0xE0) ∧
    (c &&& 0xF0 = 0xE0 ↔ 0xE0 ≤ c ∧ c < 0xF0) ∧
    (c &&& 0xF8 = 0xF0 ↔ 0xF0 ≤ c ∧ c < 0xF8) := by
  decide

theorem toByte_and_C0 (b : Nat) : toByte b &&& 0xC0 = b &&& 0xC0 := by
  have h : toByte b = b &&& 255 := (Nat.and_pow_two_sub_one_eq_mod b 8).symm
  rw [h, Nat.and_assoc]
  rfl

theorem leadByteArith_of_declares {lead n : Nat} (hlead : lead < 256)
    (hdecl : (n = 1 ∧ lead &&& 0xE0 = 0xC0) ∨ (n = 2 ∧ lead &&& 0xF0 = 0xE0) ∨
      (n = 3 ∧ lead &&& 0xF8 = 0xF0)) :
    ∃ cp0, leadByteArith (lead % 256) = some (cp0, n) := by
  obtain ⟨-, h2, h3, h4⟩ := lead_patterns lead hlead
  rw [Nat.mod_eq_of_lt hlead]
  rcases hdecl with ⟨rfl, h⟩ | ⟨rfl, h⟩ | ⟨rfl, h⟩
  · exact ⟨_, leadByteArith_two (h2.mp h).1 (h2.mp h).2⟩
  · exact ⟨_, leadByteArith_three (h3.mp h).1 (h3.mp h).2⟩
  · exact ⟨_, leadByteArith_four (h4.mp h).1 (h4.mp h).2⟩

theorem contList_bad : ∀ (l : List Nat) (cp : Nat), (∃ b ∈ l, b &&& 0xC0 ≠ 0x80) →
    contList l cp = 0xFFFD := by
  intro l
  induction l with
  | nil => intro cp h; simp at h
  | cons a l ih =>
    intro cp h
    simp only [contList, toByte_and_C0]
    by_cases ha : a &&& 0xC0 = 0x80
    · rw [if_neg (by simpa using ha)]
      apply ih
      obtain ⟨b, hb, hbad⟩ := h
      rcases List.mem_cons.mp hb with rfl | hb
      · exact absurd ha hbad
      · exact ⟨b, hb, hbad⟩
    · rw [if_pos ha]

theorem utf8ToCodepoints_encode_list (cps : List Nat) (hcps : ∀ cp ∈ cps, cp < 0x200000)
    (rest : List Nat) :
    utf8ToCodepoints ((cps.map codepointToUtf8).flatten ++ rest) =
      cps ++ utf8ToCodepoints rest := by
  induction cps with
  | nil => simp
  | cons cp cps ih =>
    simp only [List.map_cons, List.flatten_cons, List.append_assoc, List.cons_append]
    rw [utf8ToCodepoints_encode_append cp (hcps cp (List.mem_cons_self _ _)),
      ih (fun c hc => hcps c (List.mem_cons_of_mem _ hc))]

theorem foldl_append_eq (f : Nat → List Nat) (l : List Nat) :
    ∀ acc : List Nat, l.foldl (fun out cp => out ++ f cp) acc = acc ++ (l.map f).flatten := by
  induction l with
  | nil => intro acc; simp
  | cons a l ih => intro acc; simp [ih]

theorem processLine_eq (input : List Nat) :
    processLine input = ((utf8ToCodepoints input).map romanizeCodepoint).flatten := by
  simp [processLine, foldl_append_eq]

/-- C6: a leading byte that announces `n` continuation bytes (`110xxxxx`: 1, `1110xxxx`: 2,
`11110xxx`: 3), followed by at least `n` bytes of which one of the first `n` is not of the form
`10xxxxxx`, yields exactly one `0xFFFD`, and decoding goes on after all `1 + n` bytes.  Example:
`[0xC2, 0x20]` decodes to `[0xFFFD]`. -/
theorem C6_bad_continuation (lead n : Nat) (bs : List Nat) (hlead : lead < 256)
    (hdecl : (n = 1 ∧ lead &&& 0xE0 = 0xC0) ∨ (n = 2 ∧ lead &&& 0xF0 = 0xE0) ∨
      (n = 3 ∧ lead &&& 0xF8 = 0xF0))
    (hlen : n ≤ bs.length) (hbad : ∃ b ∈ bs.take n, b &&& 0xC0 ≠ 0x80) :
    utf8ToCodepoints (lead :: bs) = 0xFFFD :: utf8ToCodepoints (bs.drop n) ∧
    utf8ToCodepoints [0xC2, 0x20] = [0xFFFD] := by
  refine ⟨?_, by decide⟩
  obtain ⟨cp0, h0⟩ := leadByteArith_of_declares hlead hdecl
  rw [utf8ToCodepoints_cons, h0]
  simp only []
  rw [if_neg (by omega), contList_bad _ cp0 hbad]

theorem C6_bad_continuation_witness :
    utf8ToCodepoints (0xE1 :: [0x80, 0x41, 0x42]) =
      0xFFFD :: utf8ToCodepoints ([0x80, 0x41, 0x42].drop 2) ∧
    utf8ToCodepoints [0xC2, 0x20] = [0xFFFD] :=
  C6_bad_continuation 0xE1 2 [0x80, 0x41, 0x42] (by decide) (by decide) (by decide)
    ⟨0x41, by decide, by decide⟩

/-- C7: after the encodings of codepoints below `0x200000`, a leading byte that announces `n`
continuation bytes (`n` from 1 to 3) followed by fewer than `n` bytes of any value stops the
decoder: the result is exactly the codepoints decoded so far, with no replacement codepoint and
nothing decoded from the tail.  Example: `[0xE0]` decodes to `[]`. -/
theorem C7_truncation (cps : List Nat) (lead n : Nat) (tail : List Nat)
    (hcps : ∀ cp ∈ cps, cp < 0x200000) (hlead : lead < 256)
    (hdecl : (n = 1 ∧ lead &&& 0xE0 = 0xC0) ∨ (n = 2 ∧ lead &&& 0xF0 = 0xE0) ∨
      (n = 3 ∧ lead &&& 0xF8 = 0xF0))
    (htail : tail.length < n) :
    utf8ToCodepoints ((cps.map codepointToUtf8).flatten ++ lead :: tail) = cps ∧
    utf8ToCodepoints [0xE0] = [] := by
  refine ⟨?_, by decide⟩
  obtain ⟨cp0, h0⟩ := leadByteArith_of_declares hlead hdecl
  rw [utf8ToCodepoints_encode_list cps hcps, utf8ToCodepoints_cons, h0]
  simp only []
  rw [if_pos htail, List.append_nil]

theorem C7_truncation_witness :
    utf8ToCodepoints (([0x41, 0xAC00, 0x1F600].map codepointToUtf8).flatten ++ 0xF0 :: [0x41, 0x9F])
      = [0x41, 0xAC00, 0x1F600] ∧
    utf8ToCodepoints [0xE0] = [] :=
  C7_truncation [0x41, 0xAC00, 0x1F600] 0xF0 3 [0x41, 0x9F] (by decide) (by decide) (by decide)
    (by decide)

/-- C8: a byte that matches none of the four leading patterns (`0x80 ≤ b ≤ 0xBF` or
`b ≥ 0xF8`) is skipped alone: nothing is emitted for it and decoding goes on at the next byte.
Example: `[0x80]` decodes to `[]`. -/
theorem C8_invalid_lead_skipped (b : Nat) (rest : List Nat) (hb : b < 256)
    (hinv : (0x80 ≤ b ∧ b ≤ 0xBF) ∨ 0xF8 ≤ b) :
    (b &&& 0x80 ≠ 0 ∧ b &&& 0xE0 ≠ 0xC0 ∧ b &&& 0xF0 ≠ 0xE0 ∧ b &&& 0xF8 ≠ 0xF0) ∧
    leadByte b = none ∧
    utf8ToCodepoints (b :: rest) = utf8ToCodepoints rest ∧
    utf8ToCodepoints [0x80] = [] := by
  obtain ⟨h1, h2, h3, h4⟩ := lead_patterns b hb
  have hnone : leadByteArith b = none := leadByteArith_invalid (by omega)
  refine ⟨⟨?_, ?_, ?_, ?_⟩, ?_, ?_, by decide⟩
  · intro h; have := h1.mp h; omega
  · intro h; have := h2.mp h; omega
  · intro h; have := h3.mp h; omega
  · intro h; have := h4.mp h; omega
  · rw [leadByte_eq_arith b hb, hnone]
  · rw [utf8ToCodepoints_cons, Nat.mod_eq_of_lt hb, hnone]

theorem C8_invalid_lead_skipped_witness :
    (0xFF &&& 0x80 ≠ 0 ∧ 0xFF &&& 0xE0 ≠ 0xC0 ∧ 0xFF &&& 0xF0 ≠ 0xE0 ∧ 0xFF &&& 0xF8 ≠ 0xF0) ∧
    leadByte 0xFF = none ∧
    utf8ToCodepoints (0xFF :: [0x41, 0x42]) = utf8ToCodepoints [0x41, 0x42] ∧
    utf8ToCodepoints [0x80] = [] :=
  C8_invalid_lead_skipped 0xFF [0x41, 0x42] (by decide) (by decide)


/-! ## Encoder shape and line processing -/

theorem cont_byte_pattern (x : Nat) : (128 + x % 64) &&& 0xC0 = 0x80 :=
  (isCont_iff (128 + x % 64) (by omega)).mpr (by omega)

theorem flatten_encode_ascii (bs : List Nat) (h : ∀ b ∈ bs, b ≤ 0x7F) :
    (bs.map codepointToUtf8).flatten = bs := by
  induction bs with
  | nil => rfl
  | cons b bs ih =>
    have hb : b ≤ 0x7F := h b (List.mem_cons_self _ _)
    rw [List.map_cons, List.flatten_cons, ih (fun c hc => h c (List.mem_cons_of_mem _ hc)),
      codepointToUtf8_arith, if_pos hb]
    rfl

/-- C9: `codepointToUtf8` returns a byte sequence for every 32-bit input, its shape chosen by
magnitude: up to `0x7F` the single byte `cp`; up to `0x7FF` the two bytes
`[0xC0 | (cp >> 6), 0x80 | (cp & 0x3F)]`; up to `0xFFFF` three bytes with lead bits `1110` and
a 4+6+6 split; above that four bytes with lead bits `11110` and a 3+6+6+6 split of the low 21
bits.  In every case there are 1 to 4 bytes, the decoder reads the first byte as the leading
byte of a sequence of exactly that length, and every later byte has the form `10xxxxxx`. -/
theorem C9_encode_shape (cp : Nat) (h32 : cp < 2 ^ 32) :
    (cp ≤ 0x7F → codepointToUtf8 cp = [cp]) ∧
    (0x7F < cp → cp ≤ 0x7FF →
      codepointToUtf8 cp = [0xC0 ||| (cp >>> 6), 0x80 ||| (cp &&& 0x3F)]) ∧
    (0x7FF < cp → cp ≤ 0xFFFF →
      cp >>> 12 < 16 ∧
      codepointToUtf8 cp =
        [0xE0 ||| (cp >>> 12), 0x80 ||| ((cp >>> 6) &&& 0x3F), 0x80 ||| (cp &&& 0x3F)]) ∧
    (0xFFFF < cp →
      (cp % 2 ^ 21) >>> 18 < 8 ∧
      codepointToUtf8 cp =
        [0xF0 ||| ((cp % 2 ^ 21) >>> 18), 0x80 ||| (((cp % 2 ^ 21) >>> 12) &&& 0x3F),
         0x80 ||| (((cp % 2 ^ 21) >>> 6) &&& 0x3F), 0x80 ||| ((cp % 2 ^ 21) &&& 0x3F)]) ∧
    (1 ≤ (codepointToUtf8 cp).length ∧ (codepointToUtf8 cp).length ≤ 4) ∧
    (∀ b ∈ codepointToUtf8 cp, b < 256) ∧
    (∃ b0 later payload, codepointToUtf8 cp = b0 :: later ∧
      leadByte b0 = some (payload, later.length) ∧
      ∀ b ∈ later, b &&& 0xC0 = 0x80) := by
  have e6 : cp >>> 6 = cp / 64 := shr_6 cp
  have e12 : cp >>> 12 = cp / 4096 := shr_12 cp
  have m6 : (cp % 2 ^ 21) >>> 6 = cp % 2 ^ 21 / 64 := shr_6 _
  have m12 : (cp % 2 ^ 21) >>> 12 = cp % 2 ^ 21 / 4096 := shr_12 _
  have m18 : (cp % 2 ^ 21) >>> 18 = cp % 2 ^ 21 / 262144 := shr_18 _
  refine ⟨?_, ?_, ?_, ?_, ?_, ?_, ?_⟩
  · intro h
    rw [codepointToUtf8_arith, if_pos h]
  · intro h1 h2
    have h : cp / 64 = cp / 64 % 32 := by omega
    have hc : 0xC0 ||| (cp / 64) = 192 + cp / 64 % 32 := by rw [← or_C0, ← h]
    rw [codepointToUtf8_arith, if_neg (by omega), if_pos h2, e6, and_3F, or_80, hc]
  · intro h1 h2
    refine ⟨by omega, ?_⟩
    have h : cp / 4096 = cp / 4096 % 16 := by omega
    have hc : 0xE0 ||| (cp / 4096) = 224 + cp / 4096 % 16 := by rw [← or_E0, ← h]
    rw [codepointToUtf8_arith, if_neg (by omega), if_neg (by omega), if_pos h2, e6, e12,
      and_3F, and_3F, or_80, or_80, hc]
  · intro h1
    refine ⟨by omega, ?_⟩
    rw [codepointToUtf8_arith, if_neg (by omega), if_neg (by omega), if_neg (by omega), m6, m12,
      m18, and_3F, and_3F, and_3F, or_80, or_80, or_80]
    have h : cp % 2 ^ 21 / 262144 = cp / 262144 % 8 := by omega
    rw [h, or_F0]
    have a1 : cp % 2 ^ 21 / 4096 % 64 = cp / 4096 % 64 := by omega
    have a2 : cp % 2 ^ 21 / 64 % 64 = cp / 64 % 64 := by omega
    have a3 : cp % 2 ^ 21 % 64 = cp % 64 := by omega
    rw [a1, a2, a3]
  · rw [codepointToUtf8_arith]
    split_ifs <;> simp
  · rw [codepointToUtf8_arith]
    split_ifs <;> simp <;> omega
  · rw [codepointToUtf8_arith]
    split_ifs with h1 h2 h3
    · refine ⟨cp, [], cp, rfl, ?_, by simp⟩
      rw [leadByte_eq_arith cp (by omega)]
      exact leadByteArith_one (by omega)
    · refine ⟨_, _, 192 + cp / 64 % 32 - 0xC0, rfl, ?_, ?_⟩
      · rw [leadByte_eq_arith _ (by omega)]
        exact leadByteArith_two (by omega) (by omega)
      · intro b hb
        simp only [List.mem_singleton] at hb
        rw [hb]
        exact cont_byte_pattern _
    · refine ⟨_, _, 224 + cp / 4096 % 16 - 0xE0, rfl, ?_, ?_⟩
      · rw [leadByte_eq_arith _ (by omega)]
        exact leadByteArith_three (by omega) (by omega)
      · intro b hb
        simp only [List.mem_cons, List.mem_singleton, List.not_mem_nil, or_false] at hb
        rcases hb with rfl | rfl <;> exact cont_byte_pattern _
    · refine ⟨_, _, 240 + cp / 262144 % 8 - 0xF0, rfl, ?_, ?_⟩
      · rw [leadByte_eq_arith _ (by omega)]
        exact leadByteArith_four (by omega) (by omega)
      · intro b hb
        simp only [List.mem_cons, List.mem_singleton, List.not_mem_nil, or_false] at hb
        rcases hb with rfl | rfl | rfl <;> exact cont_byte_pattern _

theorem C9_encode_shape_witness :
    (0x1F600 ≤ 0x7F → codepointToUtf8 0x1F600 = [0x1F600]) ∧
    (0x7F < 0x1F600 → 0x1F600 ≤ 0x7FF →
      codepointToUtf8 0x1F600 = [0xC0 ||| (0x1F600 >>> 6), 0x80 ||| (0x1F600 &&& 0x3F)]) ∧
    (0x7FF < 0x1F600 → 0x1F600 ≤ 0xFFFF →
      0x1F600 >>> 12 < 16 ∧
      codepointToUtf8 0x1F600 =
        [0xE0 ||| (0x1F600 >>> 12), 0x80 ||| ((0x1F600 >>> 6) &&& 0x3F), 0x80 ||| (0x1F600 &&& 0x3F)]) ∧
    (0xFFFF < 0x1F600 →
      (0x1F600 % 2 ^ 21) >>> 18 < 8 ∧
      codepointToUtf8 0x1F600 =
        [0xF0 ||| ((0x1F600 % 2 ^ 21) >>> 18), 0x80 ||| (((0x1F600 % 2 ^ 21) >>> 12) &&& 0x3F),
         0x80 ||| (((0x1F600 % 2 ^ 21) >>> 6) &&& 0x3F), 0x80 ||| ((0x1F600 % 2 ^ 21) &&& 0x3F)]) ∧
    (1 ≤ (codepointToUtf8 0x1F600).length ∧ (codepointToUtf8 0x1F600).length ≤ 4) ∧
    (∀ b ∈ codepointToUtf8 0x1F600, b < 256) ∧
    (∃ b0 later payload, codepointToUtf8 0x1F600 = b0 :: later ∧
      leadByte b0 = some (payload, later.length) ∧
      ∀ b ∈ later, b &&& 0xC0 = 0x80) :=
  C9_encode_shape 0x1F600 (by decide)

/-- C10: a line that consists of the encodings of codepoints below `0x200000`, none of them in
the syllable range `[0xAC00, 0xD7A3]`, is returned unchanged by `processLine`; in particular a
line `bs` of ASCII bytes only is returned unchanged. -/
theorem C10_line_passthrough (cps bs : List Nat) (hcps : ∀ cp ∈ cps, cp < 0x200000)
    (hnot : ∀ cp ∈ cps, ¬ (0xAC00 ≤ cp ∧ cp ≤ 0xD7A3)) (hascii : ∀ b ∈ bs, b ≤ 0x7F) :
    processLine ((cps.map codepointToUtf8).flatten) = (cps.map codepointToUtf8).flatten ∧
    processLine bs = bs := by
  have key : ∀ l : List Nat, (∀ cp ∈ l, cp < 0x200000) →
      (∀ cp ∈ l, ¬ (0xAC00 ≤ cp ∧ cp ≤ 0xD7A3)) →
      processLine ((l.map codepointToUtf8).flatten) = (l.map codepointToUtf8).flatten := by
    intro l h1 h2
    have hdec := utf8ToCodepoints_encode_list l h1 []
    rw [List.append_nil, utf8ToCodepoints_nil, List.append_nil] at hdec
    rw [processLine_eq, hdec]
    congr 1
    apply List.map_congr_left
    intro cp hcp
    have := h2 cp hcp
    exact romanize_out_of_range (by omega)
  refine ⟨key cps hcps hnot, ?_⟩
  have h := key bs (fun b hb => by have := hascii b hb; omega)
    (fun b hb => by have := hascii b hb; omega)
  rw [flatten_encode_ascii bs hascii] at h
  exact h

theorem C10_line_passthrough_witness :
    processLine (([0x41, 0x416, 0x20AC, 0xD800, 0x1F600].map codepointToUtf8).flatten) =
      ([0x41, 0x416, 0x20AC, 0xD800, 0x1F600].map codepointToUtf8).flatten ∧
    processLine [0x68, 0x69, 0x21] = [0x68, 0x69, 0x21] :=
  C10_line_passthrough [0x41, 0x416, 0x20AC, 0xD800, 0x1F600] [0x68, 0x69, 0x21] (by decide)
    (by decide) (by decide)


/-! ## Round trips beyond the Unicode range -/

theorem utf8ToCodepoints_encode_large (cp : Nat) (h : 0xFFFF < cp) :
    utf8ToCodepoints (codepointToUtf8 cp) = [cp % 0x200000] := by
  rw [codepointToUtf8_arith, if_neg (by omega), if_neg (by omega), if_neg (by omega),
    utf8ToCodepoints_cons, leadByteArith_four (by omega) (by omega)]
  simp only [List.length_cons, List.length_nil, List.take_succ_cons, List.take_zero,
    List.drop_succ_cons, List.drop_zero]
  rw [if_neg (by omega), contList_cons_arith, if_pos (by omega), contList_cons_arith,
    if_pos (by omega), contList_cons_arith, if_pos (by omega), utf8ToCodepoints_nil]
  simp only [contList]
  congr 1
  omega

/-- C11: as the claim states it, the round trip fails at `0x200000`, the first codepoint that
does not fit the 21 payload bits of a 4-byte sequence: its encoding decodes to `[0]`. -/
theorem C11_roundtrip_above_max_counterexample :
    0x10FFFF < 0x200000 ∧ 0x200000 < 2 ^ 32 ∧
    codepointToUtf8 0x200000 = [0xF0, 0x80, 0x80, 0x80] ∧
    utf8ToCodepoints (codepointToUtf8 0x200000) = [0] ∧
    utf8ToCodepoints (codepointToUtf8 0x200000) ≠ [0x200000] := by
  decide

/-- C11 (amended): for every 32-bit codepoint above `0x10FFFF`, decoding the encoding gives the
low 21 bits of the codepoint, `[cp mod 0x200000]`; this is `[cp]` exactly when
`cp < 0x200000`. -/
theorem C11_roundtrip_above_max (cp : Nat) (h32 : cp < 2 ^ 32) (habove : 0x10FFFF < cp) :
    utf8ToCodepoints (codepointToUtf8 cp) = [cp % 0x200000] ∧
    (utf8ToCodepoints (codepointToUtf8 cp) = [cp] ↔ cp < 0x200000) := by
  have h := utf8ToCodepoints_encode_large cp (by omega)
  refine ⟨h, ?_⟩
  rw [h]
  constructor
  · intro he
    have := List.head_eq_of_cons_eq he
    omega
  · intro hlt
    rw [Nat.mod_eq_of_lt hlt]

theorem C11_roundtrip_above_max_witness :
    (utf8ToCodepoints (codepointToUtf8 0x110000) = [0x110000 % 0x200000] ∧
      (utf8ToCodepoints (codepointToUtf8 0x110000) = [0x110000] ↔ 0x110000 < 0x200000)) ∧
    (utf8ToCodepoints (codepointToUtf8 0xFFFFFFFF) = [0xFFFFFFFF % 0x200000] ∧
      (utf8ToCodepoints (codepointToUtf8 0xFFFFFFFF) = [0xFFFFFFFF] ↔ 0xFFFFFFFF < 0x200000)) :=
  ⟨C11_roundtrip_above_max 0x110000 (by decide) (by decide),
   C11_roundtrip_above_max 0xFFFFFFFF (by decide) (by decide)⟩

/-- C14: each of the 21 entries of `VTable` is a non-empty string, so for a 32-bit codepoint
`translitLanguageToRussian cp` is empty exactly when `cp` is outside `[0xAC00, 0xD7A3]`; for a
syllable codepoint `romanizeCodepoint` therefore never sees the empty result and returns the
transliteration. -/
theorem C14_empty_iff_out_of_range (cp : Nat) (_h32 : cp < 2 ^ 32) :
    VTable.length = 21 ∧ (∀ v ∈ VTable, v ≠ []) ∧
    (translitLanguageToRussian cp = [] ↔ (cp < 0xAC00 ∨ 0xD7A3 < cp)) ∧
    (0xAC00 ≤ cp ∧ cp ≤ 0xD7A3 →
      translitLanguageToRussian cp ≠ [] ∧
      romanizeCodepoint cp = translitLanguageToRussian cp) := by
  refine ⟨by decide, by decide, ⟨?_, ?_⟩, ?_⟩
  · intro he
    by_contra hin
    exact @translit_ne_nil cp (by omega) (by omega) he
  · intro hout
    unfold translitLanguageToRussian
    rw [outOfRange_eq_true (by omega)]
    rfl
  · intro hin
    exact ⟨translit_ne_nil hin.1 hin.2, romanize_in_range hin.1 hin.2⟩

theorem C14_empty_iff_out_of_range_witness :
    VTable.length = 21 ∧ (∀ v ∈ VTable, v ≠ []) ∧
    (translitLanguageToRussian 0xD7A3 = [] ↔ (0xD7A3 < 0xAC00 ∨ 0xD7A3 < 0xD7A3)) ∧
    (0xAC00 ≤ 0xD7A3 ∧ 0xD7A3 ≤ 0xD7A3 →
      translitLanguageToRussian 0xD7A3 ≠ [] ∧
      romanizeCodepoint 0xD7A3 = translitLanguageToRussian 0xD7A3) :=
  C14_empty_iff_out_of_range 0xD7A3 (by decide)

/-- C15: for every codepoint below `0x200000` (surrogates and values above `0x10FFFF`
included) and every byte sequence `rest`, the encoding of `cp` followed by `rest` decodes to
`cp` followed by the decoding of `rest`; hence the concatenated encodings of a list of such
codepoints decode to that list. -/
theorem C15_string_roundtrip (cp : Nat) (rest cps : List Nat) (hcp : cp < 0x200000)
    (hcps : ∀ c ∈ cps, c < 0x200000) :
    utf8ToCodepoints (codepointToUtf8 cp ++ rest) = cp :: utf8ToCodepoints rest ∧
    utf8ToCodepoints ((cps.map codepointToUtf8).flatten) = cps := by
  refine ⟨utf8ToCodepoints_encode_append cp hcp rest, ?_⟩
  have h := utf8ToCodepoints_encode_list cps hcps []
  rw [List.append_nil, utf8ToCodepoints_nil, List.append_nil] at h
  exact h

theorem C15_string_roundtrip_witness :
    utf8ToCodepoints (codepointToUtf8 0xD800 ++ [0x80, 0x41]) =
      0xD800 :: utf8ToCodepoints [0x80, 0x41] ∧
    utf8ToCodepoints (([0x1FFFFF, 0x0, 0xDFFF, 0x7FF].map codepointToUtf8).flatten) =
      [0x1FFFFF, 0x0, 0xDFFF, 0x7FF] :=
  C15_string_roundtrip 0xD800 [0x80, 0x41] [0x1FFFFF, 0x0, 0xDFFF, 0x7FF] (by decide)
    (by decide)

/-! ## Termination and size of the decoded values -/

theorem decodeStep_advance (s : List Nat) (i : Nat) (codepoints : List Nat) (i2 : Nat)
    (c2 : List Nat) (h : decodeStep s i codepoints = some (i2, c2)) :
    i < i2 ∧ i2 ≤ s.length ∧ c2.length ≤ codepoints.length + 1 := by
  unfold decodeStep at h
  by_cases hi : i < s.length
  · rw [if_pos hi] at h
    cases hl : leadByte (toByte (s.getD i 0)) with
    | none =>
      rw [hl] at h
      simp only [Option.some.injEq, Prod.mk.injEq] at h
      obtain ⟨rfl, rfl⟩ := h
      omega
    | some p =>
      obtain ⟨cp, extra⟩ := p
      rw [hl] at h
      simp only [] at h
      by_cases hx : i + extra ≥ s.length
      · rw [if_pos hx] at h
        simp at h
      · rw [if_neg hx] at h
        simp only [Option.some.injEq, Prod.mk.injEq] at h
        obtain ⟨rfl, rfl⟩ := h
        simp only [List.length_append, List.length_singleton]
        omega
  · rw [if_neg hi] at h
    simp at h

theorem decodeRun_eq_loop (s : List Nat) :
    ∀ (fuel i : Nat) (acc : List Nat), s.length - i < fuel →
      decodeRun s fuel i acc = some (decodeLoop s fuel i acc) := by
  intro fuel
  induction fuel with
  | zero => intro i acc h; omega
  | succ fuel ih =>
    intro i acc h
    simp only [decodeRun, decodeLoop, decodeStep]
    by_cases hi : i < s.length
    · simp only [if_pos hi]
      cases hl : leadByte (toByte (s.getD i 0)) with
      | none =>
        simp only []
        exact ih (i + 1) acc (by omega)
      | some p =>
        obtain ⟨cp, extra⟩ := p
        simp only []
        by_cases hx : i + extra ≥ s.length
        · simp only [if_pos hx]
        · simp only [if_neg hx]
          exact ih (i + 1 + extra) _ (by omega)
    · simp only [if_neg hi]

theorem decodeRun_total (s : List Nat) (fuel : Nat) (h : s.length < fuel) :
    decodeRun s fuel 0 [] = some (utf8ToCodepoints s) := by
  rw [decodeRun_eq_loop s fuel 0 [] (by omega), decodeLoop_budget s fuel (by omega)]

theorem decodeList_length_le : ∀ (n : Nat) (s : List Nat), s.length ≤ n →
    (decodeList s).length ≤ s.length := by
  intro n
  induction n with
  | zero =>
    intro s h
    have : s = [] := List.length_eq_zero.mp (by omega)
    rw [this, decodeList_nil]
  | succ n ih =>
    intro s h
    cases s with
    | nil => rw [decodeList_nil]
    | cons c rest =>
      have hr : rest.length ≤ n := by simpa using h
      rw [decodeList_cons]
      cases hl : leadByte (toByte c) with
      | none =>
        simp only [List.length_cons]
        have := ih rest hr
        omega
      | some p =>
        obtain ⟨cp, extra⟩ := p
        simp only [List.length_cons]
        by_cases hx : rest.length < extra
        · rw [if_pos hx]
          simp
        · rw [if_neg hx]
          have := ih (rest.drop extra) (by rw [List.length_drop]; omega)
          rw [List.length_drop] at this
          simp only [List.length_cons]
          omega

/-- C12: `utf8ToCodepoints` is total.  For every byte sequence the loop is left after at most
as many iterations as there are bytes, returning the vector without any failure value, because
an iteration that does not leave the loop moves the cursor forward by at least one byte (and
never past the end); the returned list is at most as long as the input. -/
theorem C12_decoder_total (s : List Nat) :
    decodeRun s (s.length + 1) 0 [] = some (utf8ToCodepoints s) ∧
    (∀ fuel, s.length < fuel → decodeRun s fuel 0 [] = some (utf8ToCodepoints s)) ∧
    (∀ i codepoints i2 c2, decodeStep s i codepoints = some (i2, c2) →
      i + 1 ≤ i2 ∧ i2 ≤ s.length ∧ c2.length ≤ codepoints.length + 1) ∧
    (utf8ToCodepoints s).length ≤ s.length := by
  refine ⟨decodeRun_total s _ (by omega), fun fuel h => decodeRun_total s fuel h, ?_, ?_⟩
  · intro i codepoints i2 c2 h
    exact decodeStep_advance s i codepoints i2 c2 h
  · rw [utf8ToCodepoints_eq]
    exact decodeList_length_le s.length s (Nat.le_refl _)

theorem C12_decoder_total_witness :
    decodeRun [0xC2, 0x20, 0x80, 0xFF, 0x41, 0xE0, 0x80] 8 0 [] = some [0xFFFD, 0x41] ∧
    (decodeStep [0xC2, 0x20, 0x80, 0xFF, 0x41, 0xE0, 0x80] 0 [] = some (2, [0xFFFD]) →
      0 + 1 ≤ 2 ∧ 2 ≤ 7 ∧ [0xFFFD].length ≤ ([] : List Nat).length + 1) ∧
    (utf8ToCodepoints [0xC2, 0x20, 0x80, 0xFF, 0x41, 0xE0, 0x80]).length ≤ 7 :=
  ⟨(C12_decoder_total [0xC2, 0x20, 0x80, 0xFF, 0x41, 0xE0, 0x80]).2.1 8 (by decide),
   (C12_decoder_total [0xC2, 0x20, 0x80, 0xFF, 0x41, 0xE0, 0x80]).2.2.1 0 [] 2 [0xFFFD],
   (C12_decoder_total [0xC2, 0x20, 0x80, 0xFF, 0x41, 0xE0, 0x80]).2.2.2⟩

theorem leadByteArith_some {c cp0 extra : Nat} (hc : c < 256)
    (h : leadByteArith c = some (cp0, extra)) :
    (extra = 0 ∧ cp0 < 128) ∨ (extra = 1 ∧ cp0 < 32) ∨ (extra = 2 ∧ cp0 < 16) ∨
      (extra = 3 ∧ cp0 < 8) := by
  unfold leadByteArith at h
  split_ifs at h <;> simp only [Option.some.injEq, Prod.mk.injEq] at h <;> omega

theorem contList_lt : ∀ (l : List Nat) (cp : Nat),
    contList l cp = 0xFFFD ∨ contList l cp < (cp + 1) * 64 ^ l.length := by
  intro l
  induction l with
  | nil => intro cp; right; simp [contList]
  | cons b bs ih =>
    intro cp
    rw [contList_cons_arith]
    split_ifs with hb
    · rcases ih ((cp * 64 + b % 64) % 2 ^ 32) with h | h
      · left; exact h
      · right
        refine Nat.lt_of_lt_of_le h ?_
        have h64 : 64 ^ (bs.length + 1) = 64 * 64 ^ bs.length := by
          rw [Nat.pow_succ, Nat.mul_comm]
        rw [List.length_cons, h64, ← Nat.mul_assoc]
        apply Nat.mul_le_mul_right
        have := Nat.mod_le (cp * 64 + b % 64) (2 ^ 32)
        omega
    · left; rfl

theorem sequence_value_bound {c cp0 extra : Nat} (hc : c < 256)
    (h : leadByteArith c = some (cp0, extra)) (v : Nat)
    (hv : v = 0xFFFD ∨ v < (cp0 + 1) * 64 ^ extra) :
    v = 0xFFFD ∨ (extra = 0 ∧ v < 2 ^ 7) ∨ (extra = 1 ∧ v < 2 ^ 11) ∨
      (extra = 2 ∧ v < 2 ^ 16) ∨ (extra = 3 ∧ v < 2 ^ 21) := by
  rcases leadByteArith_some hc h with ⟨rfl, h0⟩ | ⟨rfl, h0⟩ | ⟨rfl, h0⟩ | ⟨rfl, h0⟩ <;>
    rcases hv with hv | hv <;> norm_num at hv ⊢ <;> omega

theorem decodeList_lt : ∀ (n : Nat) (s : List Nat), s.length ≤ n →
    ∀ cp ∈ decodeList s, cp < 0x200000 := by
  intro n
  induction n with
  | zero =>
    intro s h cp hcp
    have : s = [] := List.length_eq_zero.mp (by omega)
    rw [this, decodeList_nil] at hcp
    simp at hcp
  | succ n ih =>
    intro s h cp hcp
    cases s with
    | nil => rw [decodeList_nil] at hcp; simp at hcp
    | cons c rest =>
      have hr : rest.length ≤ n := by simpa using h
      rw [decodeList_cons, leadByte_eq_arith _ (toByte_lt c)] at hcp
      cases hl : leadByteArith (toByte c) with
      | none =>
        rw [hl] at hcp
        exact ih rest hr cp hcp
      | some p =>
        obtain ⟨cp0, extra⟩ := p
        rw [hl] at hcp
        simp only [] at hcp
        by_cases hx : rest.length < extra
        · rw [if_pos hx] at hcp
          simp at hcp
        · rw [if_neg hx] at hcp
          rcases List.mem_cons.mp hcp with rfl | hmem
          · have hlen : (rest.take extra).length = extra := by
              rw [List.length_take]; omega
            have hb := contList_lt (rest.take extra) cp0
            rw [hlen] at hb
            have hv := sequence_value_bound (toByte_lt c) hl _ hb
            norm_num at hv
            omega
          · exact ih (rest.drop extra) (by rw [List.length_drop]; omega) cp hmem

theorem utf8ToCodepoints_lt (s : List Nat) : ∀ cp ∈ utf8ToCodepoints s, cp < 0x200000 := by
  rw [utf8ToCodepoints_eq]
  exact decodeList_lt s.length s (Nat.le_refl _)

/-- C17: every codepoint that `utf8ToCodepoints` emits, for every input, is below `0x200000`,
so encoding it loses no bits (its encoding decodes back to it).  For a leading byte followed by
exactly the continuation bytes it announces, the emitted codepoint is `0xFFFD` or has at most
7, 11, 16 or 21 bits for a sequence of 1, 2, 3 or 4 bytes. -/
theorem C17_decoded_below_2_21 (s : List Nat) (lead payload extra : Nat) (conts : List Nat)
    (hlead : leadByte (toByte lead) = some (payload, extra)) (hlen : conts.length = extra) :
    (∀ cp ∈ utf8ToCodepoints s,
      cp < 0x200000 ∧ cp % 2 ^ 21 = cp ∧ utf8ToCodepoints (codepointToUtf8 cp) = [cp]) ∧
    (∃ v, utf8ToCodepoints (lead :: conts) = [v] ∧
      (v = 0xFFFD ∨ (extra = 0 ∧ v < 2 ^ 7) ∨ (extra = 1 ∧ v < 2 ^ 11) ∨
        (extra = 2 ∧ v < 2 ^ 16) ∨ (extra = 3 ∧ v < 2 ^ 21))) := by
  constructor
  · intro cp hcp
    have hlt := utf8ToCodepoints_lt s cp hcp
    refine ⟨hlt, Nat.mod_eq_of_lt hlt, ?_⟩
    have h := utf8ToCodepoints_encode_append cp hlt []
    rw [List.append_nil, utf8ToCodepoints_nil] at h
    exact h
  · rw [leadByte_eq_arith _ (toByte_lt lead)] at hlead
    refine ⟨contList conts payload, ?_, ?_⟩
    · rw [utf8ToCodepoints_cons]
      simp only [toByte] at hlead
      rw [hlead]
      simp only []
      rw [if_neg (by omega), ← hlen, List.take_length, List.drop_length, utf8ToCodepoints_nil]
    · have hb := contList_lt conts payload
      rw [hlen] at hb
      exact sequence_value_bound (toByte_lt lead) hlead _ hb

theorem C17_decoded_below_2_21_witness :
    (∀ cp ∈ utf8ToCodepoints [0xF7, 0xBF, 0xBF, 0xBF, 0xC2, 0x20, 0x41],
      cp < 0x200000 ∧ cp % 2 ^ 21 = cp ∧ utf8ToCodepoints (codepointToUtf8 cp) = [cp]) ∧
    (∃ v, utf8ToCodepoints (0xF7 :: [0xBF, 0xBF, 0xBF]) = [v] ∧
      (v = 0xFFFD ∨ (3 = 0 ∧ v < 2 ^ 7) ∨ (3 = 1 ∧ v < 2 ^ 11) ∨
        (3 = 2 ∧ v < 2 ^ 16) ∨ (3 = 3 ∧ v < 2 ^ 21))) :=
  C17_decoded_below_2_21 [0xF7, 0xBF, 0xBF, 0xBF, 0xC2, 0x20, 0x41] 0xF7 7 3 [0xBF, 0xBF, 0xBF]
    (by decide) (by decide)

/-! ## Payload bits of a well-formed sequence -/

theorem shl_or_of_lt (x y k : Nat) (h : y < 2 ^ k) : (x <<< k) ||| y = x * 2 ^ k + y := by
  rw [Nat.shiftLeft_eq, Nat.mul_comm x (2 ^ k)]
  exact (Nat.mul_add_lt_is_or h x).symm

theorem cont_arith {b : Nat} (h : b &&& 0xC0 = 0x80) : 0x80 ≤ b % 256 ∧ b % 256 < 0xC0 := by
  have h2 := (isCont_iff (toByte b) (toByte_lt b)).mp (by rw [toByte_and_C0]; exact h)
  simpa [toByte] using h2

/-- C13, as the claim states it, fails on `[0xC3, 0xA9]` (the encoding of `0xE9`): the code
emits `0xE9`, the payload of the leading byte shifted by 6, while a shift by `6 × 2` gives
`0x3029`. -/
theorem C13_payload_shift_counterexample :
    isStructurallyWellFormed [0xC3, 0xA9] = true ∧
    utf8ToCodepoints [0xC3, 0xA9] = [0xE9] ∧
    combineAsStated 0xC3 [0xA9] = 0x3029 ∧
    utf8ToCodepoints [0xC3, 0xA9] ≠ [combineAsStated 0xC3 [0xA9]] := by
  decide

/-- C13 (amended): for a well-formed sequence of encoded length `n` (2 to 4: a leading byte and
`n - 1` bytes of the form `10xxxxxx`) `utf8ToCodepoints` emits one codepoint, the payload bits
of the leading byte shifted left by `6 × (n - 1)` positions, six for each continuation byte,
OR-ed with the six payload bits of each continuation byte. -/
theorem C13_payload_shift (lead n : Nat) (conts : List Nat) (hlead : lead < 256)
    (hdecl : (n = 2 ∧ lead &&& 0xE0 = 0xC0) ∨ (n = 3 ∧ lead &&& 0xF0 = 0xE0) ∨
      (n = 4 ∧ lead &&& 0xF8 = 0xF0))
    (hlen : conts.length = n - 1) (hcont : ∀ b ∈ conts, b &&& 0xC0 = 0x80) :
    utf8ToCodepoints (lead :: conts) =
      [(leadPayload lead n <<< (6 * (n - 1))) ||| contPayload conts] := by
  obtain ⟨-, h2, h3, h4⟩ := lead_patterns lead hlead
  rw [utf8ToCodepoints_cons, Nat.mod_eq_of_lt hlead]
  rcases hdecl with ⟨rfl, h⟩ | ⟨rfl, h⟩ | ⟨rfl, h⟩
  · obtain ⟨b1, rfl⟩ : ∃ b1, conts = [b1] := List.length_eq_one.mp hlen
    have c1 := cont_arith (hcont b1 (by simp))
    rw [leadByteArith_two (h2.mp h).1 (h2.mp h).2]
    simp only [List.length_cons, List.length_nil, List.take_succ_cons, List.take_zero,
      List.drop_succ_cons, List.drop_zero, leadPayload, contPayload, and_3F, and_1F]
    rw [if_neg (by omega), contList_cons_arith, if_pos c1, utf8ToCodepoints_nil]
    simp only [contList, if_true, Nat.mul_zero, Nat.shiftLeft_zero, Nat.or_zero, Nat.mul_one,
      Nat.reduceSub, shl_6_or]
    congr 1
    have := (h2.mp h).1
    have := (h2.mp h).2
    omega
  · obtain ⟨b1, b2, rfl⟩ : ∃ b1 b2, conts = [b1, b2] := List.length_eq_two.mp hlen
    have c1 := cont_arith (hcont b1 (by simp))
    have c2 := cont_arith (hcont b2 (by simp))
    rw [leadByteArith_three (h3.mp h).1 (h3.mp h).2]
    simp only [List.length_cons, List.length_nil, List.take_succ_cons, List.take_zero,
      List.drop_succ_cons, List.drop_zero, leadPayload, contPayload, and_3F, and_0F]
    rw [if_neg (by omega), contList_cons_arith, if_pos c1, contList_cons_arith, if_pos c2,
      utf8ToCodepoints_nil]
    simp only [contList, Nat.mul_zero, Nat.shiftLeft_zero, Nat.or_zero, Nat.mul_one,
      Nat.reduceSub, Nat.reduceAdd, Nat.reduceMul, shl_6_or]
    rw [shl_or_of_lt _ _ 12 (by norm_num; omega)]
    congr 1
    have := (h3.mp h).1
    have := (h3.mp h).2
    norm_num
    omega
  · obtain ⟨b1, b2, b3, rfl⟩ : ∃ b1 b2 b3, conts = [b1, b2, b3] :=
      List.length_eq_three.mp hlen
    have c1 := cont_arith (hcont b1 (by simp))
    have c2 := cont_arith (hcont b2 (by simp))
    have c3 := cont_arith (hcont b3 (by simp))
    rw [leadByteArith_four (h4.mp h).1 (h4.mp h).2]
    simp only [List.length_cons, List.length_nil, List.take_succ_cons, List.take_zero,
      List.drop_succ_cons, List.drop_zero, leadPayload, contPayload, and_3F, and_07]
    rw [if_neg (by omega), contList_cons_arith, if_pos c1, contList_cons_arith, if_pos c2,
      contList_cons_arith, if_pos c3, utf8ToCodepoints_nil]
    simp only [contList, Nat.mul_zero, Nat.shiftLeft_zero, Nat.or_zero, Nat.mul_one,
      Nat.reduceSub, Nat.reduceAdd, Nat.reduceMul, shl_6_or]
    rw [shl_or_of_lt _ _ 12 (by norm_num; omega), shl_or_of_lt _ _ 18 (by norm_num; omega)]
    congr 1
    have := (h4.mp h).1
    have := (h4.mp h).2
    norm_num
    omega

theorem C13_payload_shift_witness :
    utf8ToCodepoints (0xED :: [0x95, 0x9C]) =
      [(leadPayload 0xED 3 <<< (6 * (3 - 1))) ||| contPayload [0x95, 0x9C]] :=
  C13_payload_shift 0xED 3 [0x95, 0x9C] (by decide) (by decide) (by decide) (by decide)

/-! ## Overlong forms and repeated line processing -/

/-- C18: the decoder accepts overlong encodings, so it is not injective on structurally
well-formed sequences: `[0xC1, 0x81]` and `[0x41]` are distinct, each a leading byte with the
right number of `10xxxxxx` bytes, and both decode to `[0x41]`; the overlong 4-byte sequence
`[0xF0, 0x8A, 0xB0, 0x80]` decodes to `[0xAC00]` and is transliterated as a syllable. -/
theorem C18_overlong_accepted :
    (∃ a b : List Nat, a ≠ b ∧ isStructurallyWellFormed a = true ∧
      isStructurallyWellFormed b = true ∧ utf8ToCodepoints a = utf8ToCodepoints b) ∧
    isStructurallyWellFormed [0xC1, 0x81] = true ∧ isStructurallyWellFormed [0x41] = true ∧
    utf8ToCodepoints [0xC1, 0x81] = [0x41] ∧ utf8ToCodepoints [0x41] = [0x41] ∧
    codepointToUtf8 0x41 = [0x41] ∧
    isStructurallyWellFormed [0xF0, 0x8A, 0xB0, 0x80] = true ∧
    utf8ToCodepoints [0xF0, 0x8A, 0xB0, 0x80] = [0xAC00] ∧
    codepointToUtf8 0xAC00 = [0xEA, 0xB0, 0x80] ∧
    processLine [0xF0, 0x8A, 0xB0, 0x80] = cstr "га" ∧
    processLine [0xEA, 0xB0, 0x80] = cstr "га" := by
  refine ⟨⟨[0xC1, 0x81], [0x41], ?_⟩, ?_⟩ <;> decide

theorem isPlainCodepoint_iff (q : Nat) :
    isPlainCodepoint q = true ↔ q < 0x200000 ∧ ¬ (0xAC00 ≤ q ∧ q ≤ 0xD7A3) := by
  simp only [isPlainCodepoint, Bool.and_eq_true, Bool.not_eq_true', Bool.and_eq_false_iff,
    decide_eq_true_eq, decide_eq_false_iff_not]
  constructor
  · rintro ⟨h1, h2⟩
    exact ⟨h1, by omega⟩
  · rintro ⟨h1, h2⟩
    exact ⟨h1, by omega⟩

theorem tables_clean : ∀ e ∈ LTable ++ VTable ++ TTable, isCleanText e = true := by
  decide

theorem tables_cyrillic : ∀ e ∈ LTable ++ VTable ++ TTable,
    isCleanText e = true ∧ ∀ q ∈ utf8ToCodepoints e, 0x400 ≤ q ∧ q ≤ 0x4FF := by
  decide

theorem isCleanText_nil : isCleanText [] = true := by
  decide

theorem tableAt_clean (table : List (List Nat)) (k : Nat)
    (h : ∀ e ∈ table, isCleanText e = true) : isCleanText (tableAt table k) = true := by
  unfold tableAt
  cases hg : table.get? k with
  | none => exact isCleanText_nil
  | some e => exact h e (List.get?_mem hg)

theorem clean_of_isCleanText {p : List Nat} (h : isCleanText p = true) :
    ∃ qs : List Nat, p = (qs.map codepointToUtf8).flatten ∧
      ∀ q ∈ qs, isPlainCodepoint q = true := by
  simp only [isCleanText, Bool.and_eq_true, decide_eq_true_eq, List.all_eq_true] at h
  exact ⟨utf8ToCodepoints p, h.1.symm, h.2⟩

theorem romanize_clean (cp : Nat) (h : cp < 0x200000) :
    ∃ qs : List Nat, romanizeCodepoint cp = (qs.map codepointToUtf8).flatten ∧
      ∀ q ∈ qs, isPlainCodepoint q = true := by
  by_cases hin : 0xAC00 ≤ cp ∧ cp ≤ 0xD7A3
  · rw [romanize_in_range hin.1 hin.2, translit_in_range hin.1 hin.2]
    obtain ⟨q1, e1, p1⟩ := clean_of_isCleanText (tableAt_clean LTable (LIndex cp)
      (fun e he => tables_clean e (by simp [he])))
    obtain ⟨q2, e2, p2⟩ := clean_of_isCleanText (tableAt_clean VTable (VIndex cp)
      (fun e he => tables_clean e (by simp [he])))
    obtain ⟨q3, e3, p3⟩ := clean_of_isCleanText (tableAt_clean TTable (TIndex cp)
      (fun e he => tables_clean e (by simp [he])))
    refine ⟨q1 ++ q2 ++ q3, ?_, ?_⟩
    · rw [e1, e2, e3]
      simp only [List.map_append, List.flatten_append]
    · intro q hq
      simp only [List.mem_append] at hq
      rcases hq with (hq | hq) | hq
      · exact p1 q hq
      · exact p2 q hq
      · exact p3 q hq
  · refine ⟨[cp], ?_, ?_⟩
    · rw [romanize_out_of_range (by omega)]
      simp
    · intro q hq
      rw [List.mem_singleton] at hq
      rw [hq, isPlainCodepoint_iff]
      exact ⟨h, hin⟩

theorem romanize_list_clean : ∀ cps : List Nat, (∀ cp ∈ cps, cp < 0x200000) →
    ∃ qs : List Nat, (cps.map romanizeCodepoint).flatten = (qs.map codepointToUtf8).flatten ∧
      ∀ q ∈ qs, isPlainCodepoint q = true := by
  intro cps
  induction cps with
  | nil => intro _; exact ⟨[], rfl, by simp⟩
  | cons cp cps ih =>
    intro h
    obtain ⟨q1, e1, p1⟩ := romanize_clean cp (h cp (List.mem_cons_self _ _))
    obtain ⟨q2, e2, p2⟩ := ih (fun c hc => h c (List.mem_cons_of_mem _ hc))
    refine ⟨q1 ++ q2, ?_, ?_⟩
    · rw [List.map_cons, List.flatten_cons, e1, e2]
      simp only [List.map_append, List.flatten_append]
    · intro q hq
      rcases List.mem_append.mp hq with hq | hq
      · exact p1 q hq
      · exact p2 q hq

theorem processLine_encode_plain (qs : List Nat) (h : ∀ q ∈ qs, isPlainCodepoint q = true) :
    utf8ToCodepoints ((qs.map codepointToUtf8).flatten) = qs ∧
    processLine ((qs.map codepointToUtf8).flatten) = (qs.map codepointToUtf8).flatten := by
  have hlt : ∀ q ∈ qs, q < 0x200000 := fun q hq => ((isPlainCodepoint_iff q).mp (h q hq)).1
  have hdec := utf8ToCodepoints_encode_list qs hlt []
  rw [List.append_nil, utf8ToCodepoints_nil, List.append_nil] at hdec
  refine ⟨hdec, ?_⟩
  rw [processLine_eq, hdec]
  congr 1
  apply List.map_congr_left
  intro q hq
  have := ((isPlainCodepoint_iff q).mp (h q hq)).2
  exact romanize_out_of_range (by omega)

/-- C16: processing a line twice gives the same as processing it once, for every byte sequence,
malformed ones included.  The output is exactly the concatenated encodings of the codepoints
the decoder reads from it (no byte is skipped, cut off or replaced), all of them below
`0x200000` and none in the syllable range; every table string has this form as well, with
all its codepoints in the Cyrillic block `0x400..0x4FF`. -/
theorem C16_processLine_idempotent (bs : List Nat) :
    processLine (processLine bs) = processLine bs ∧
    ((utf8ToCodepoints (processLine bs)).map codepointToUtf8).flatten = processLine bs ∧
    (∀ q ∈ utf8ToCodepoints (processLine bs), q < 0x200000 ∧ ¬ (0xAC00 ≤ q ∧ q ≤ 0xD7A3)) ∧
    (∀ e ∈ LTable ++ VTable ++ TTable,
      isCleanText e = true ∧ ∀ q ∈ utf8ToCodepoints e, 0x400 ≤ q ∧ q ≤ 0x4FF) := by
  obtain ⟨qs, e, p⟩ := romanize_list_clean (utf8ToCodepoints bs) (utf8ToCodepoints_lt bs)
  rw [← processLine_eq] at e
  obtain ⟨hdec, hproc⟩ := processLine_encode_plain qs p
  rw [e]
  refine ⟨hproc, ?_, ?_, tables_cyrillic⟩
  · rw [hdec]
  · intro q hq
    rw [hdec] at hq
    exact (isPlainCodepoint_iff q).mp (p q hq)

theorem C16_processLine_idempotent_witness :
    processLine (processLine [0xED, 0x95, 0x9C, 0xC2, 0x20, 0x80, 0x41, 0xE0]) =
      processLine [0xED, 0x95, 0x9C, 0xC2, 0x20, 0x80, 0x41, 0xE0] ∧
    processLine [0xED, 0x95, 0x9C, 0xC2, 0x20, 0x80, 0x41, 0xE0] =
      cstr "хан" ++ [0xEF, 0xBF, 0xBD, 0x41] :=
  ⟨(C16_processLine_idempotent [0xED, 0x95, 0x9C, 0xC2, 0x20, 0x80, 0x41, 0xE0]).1, by decide⟩

end MainRu
